import Mathlib

set_option maxHeartbeats 1000000
set_option linter.unusedVariables false
set_option linter.unnecessarySeqFocus false

/-!
Shallow embedding of the jackpot connection-pool manager (src/index.js).

A `Conn` is the observable contract of a pooled connection: a coarse
`readyState` string, a `destroyed` flag and the two write-backlog counters
read by the scorer.  The `Manager` structure carries the fields of the
`Manager` constructor that the pooling algorithm mutates: `limit`, `pool`,
`pending` and the two metrics counters.  `pending` is an `Int` because the
JavaScript counter can be decremented below zero.

The caller-supplied stream factory is passed to `allocate` as data: a
`FactoryBehavior` records the factory's arity-dispatch protocol and what it
does on this particular call.  The non-determinism of `Math.random()` in the
scorer is supplied by an oracle `rand : Conn → Nat`; the branch that uses it
takes the value modulo 70, matching `Math.floor(Math.random() * 70)`.
-/

namespace Jackpot

/-- Observable state of a pooled connection (the fields of the `net.Stream`
contract that `src/index.js` reads): `readyState`, `destroyed`,
`_pendingWriteReqs` and `_writeQueue.length`.  The `id` field models
JavaScript object identity. -/
structure Conn where
  id : Nat
  readyState : String
  destroyed : Bool
  pendingWriteReqs : Nat
  writeQueueLen : Nat
deriving DecidableEq

/-- `readyState === 'open' || readyState === 'writeOnly'` (line 241). -/
def writable (c : Conn) : Bool :=
  c.readyState == "open" || c.readyState == "writeOnly"

/-- `writes = writeQueue.length || writePending` (lines 242-244): the write
queue length if nonzero, otherwise the pending write request count. -/
def writeCount (c : Conn) : Nat :=
  if c.writeQueueLen ≠ 0 then c.writeQueueLen else c.pendingWriteReqs

/-- The condition of the scorer's first branch, the only way a connection can
score exactly 100 (line 248). -/
def score100 (c : Conn) : Bool :=
  writable c && writeCount c == 0

/-- Mutable state of the `Manager` constructor (lines 14-28). -/
structure Manager where
  limit : Nat
  pool : List Conn
  pending : Int
  allocations : Nat
  releases : Nat
deriving DecidableEq

/-- `new Manager(limit)`: `this.limit = +limit || 20`, empty pool, zero
counters.  The spec requires `limit` to be a positive integer, so a zero
argument models a missing/falsy argument and defaults to 20. -/
def mkManager (limit : Nat) : Manager :=
  { limit := if limit = 0 then 20 else limit
  , pool := []
  , pending := 0
  , allocations := 0
  , releases := 0 }

/-- Number of occurrences of a connection in a list (object identity). -/
def countc (c : Conn) : List Conn → Nat
  | [] => 0
  | x :: xs => (if x = c then 1 else 0) + countc c xs

/-- `pool.splice(pool.indexOf(c), 1)`: remove the first occurrence, leave the
list unchanged when the connection is absent. -/
def removeFirst (c : Conn) : List Conn → List Conn
  | [] => []
  | x :: xs => if x = c then xs else x :: removeFirst c xs

/-- `Manager.prototype.release(connection, hard)` (lines 280-299): look the
connection up by identity; absent means `false` and no change; present means
the connection is ended (soft) or destroyed (hard) externally, spliced out of
the pool, and the `releases` metric is incremented.  `remove` is an alias of
this operation with `hard` falsy. -/
def release (c : Conn) (hard : Bool) (m : Manager) : Bool × Manager :=
  if c ∈ m.pool then
    (true, { m with pool := removeFirst c m.pool, releases := m.releases + 1 })
  else
    (false, m)

/-- `Manager.prototype.isAvailable(connection)` (lines 239-270), returning the
probability score together with the manager state after the eviction side
effect of the closed/destroyed branch (`this.remove(connection)`).  The
`rand` oracle supplies the value of `Math.floor(Math.random() * 70)` in the
final branch.  Note that the `hard` argument of the internal `remove` call is
absent, hence falsy. -/
def isAvailable (rand : Conn → Nat) (m : Manager) (c : Conn) : Nat × Manager :=
  if writable c && writeCount c == 0 then (100, m)
  else if c.readyState == "closed" || c.destroyed then (0, (release c false m).2)
  else if !(writable c) then (0, m)
  else if c.readyState == "opening" then (70, m)
  else if writeCount c < 100 then (100 - writeCount c, m)
  else (rand c % 70, m)

/-- Outcome of the pool scan in `allocate` (the `while (i--)` loop,
lines 167-183): either an early completion with a connection that scored
exactly 100, or the post-scan manager state together with the accumulated
`probabilities` list. -/
inductive ScanRes where
  | hit (c : Conn) (st : Manager)
  | nohit (st : Manager) (probs : List (Nat × Conn))
deriving DecidableEq

/-- The scan loop of `allocate`: `i` counts down from `pool.length`, reading
`this.pool[i]` of the current (possibly shrunk by scoring side effects) pool.
A score of exactly 100 completes immediately; every other score is pushed
onto `probabilities`.  An out-of-range index is skipped; it cannot occur when
each connection appears in the pool at most once, because the scorer only
ever removes the connection it is currently scoring. -/
def scanLoop (rand : Conn → Nat) : Nat → Manager → List (Nat × Conn) → ScanRes
  | 0, st, probs => ScanRes.nohit st probs
  | i + 1, st, probs =>
    match st.pool[i]? with
    | none => scanLoop rand i st probs
    | some c =>
      let pm := isAvailable rand st c
      if pm.1 = 100 then ScanRes.hit c pm.2
      else scanLoop rand i pm.2 (probs ++ [(pm.1, c)])

/-- The manager state carried by a scan result. -/
def stOf : ScanRes → Manager
  | ScanRes.hit _ st => st
  | ScanRes.nohit st _ => st

/-- Insert an entry into a list that is sorted ascending by probability. -/
def insertAsc (x : Nat × Conn) : List (Nat × Conn) → List (Nat × Conn)
  | [] => [x]
  | y :: ys => if x.1 < y.1 then x :: y :: ys else y :: insertAsc x ys

/-- `probabilities.sort(function (a, b) { return a.probability - b.probability })`
(lines 217-219): sort ascending by probability. -/
def sortProbs : List (Nat × Conn) → List (Nat × Conn)
  | [] => []
  | x :: xs => insertAsc x (sortProbs xs)

/-- `.pop()`: the last element of a list, `undefined` on an empty list. -/
def lastEntry : List (Nat × Conn) → Option (Nat × Conn)
  | [] => none
  | [x] => some x
  | _ :: y :: ys => lastEntry (y :: ys)

def noFactoryMsg : String := "Specify a stream#factory"

def factoryFailMsg : String := "The #factory failed to generate a stream"

def poolFullMsg : String := "The connection pool is full"

/-- How `allocate` completes, or whether it is left waiting.  `done err conn`
models the completion callback `fn(err, conn)`; `awaiting c` models the state
after a fresh connection was produced: `pending` was incremented, the
lifecycle listeners were attached and the allocation now waits for the
connection's own `connect`-or-`error` signal. -/
inductive AllocResult where
  | done (err : Option String) (conn : Option Conn)
  | awaiting (c : Conn)
deriving DecidableEq

/-- The tail of `allocate` (lines 217-228): sort the probabilities ascending
and pop the last entry; complete with its connection when its probability is
at least 60, otherwise complete with the "pool is full" error (also taken
when the probabilities list is empty and `pop` yields `undefined`). -/
def fallbackResult (probs : List (Nat × Conn)) : AllocResult :=
  match lastEntry (sortProbs probs) with
  | some pc =>
    if 60 ≤ pc.1 then AllocResult.done none (some pc.2)
    else AllocResult.done (some poolFullMsg) none
  | none => AllocResult.done (some poolFullMsg) none

/-- What the registered factory does on this call.  `sync ret` is a
zero-arity factory returning a connection or a falsy value
(`generator.length === 0`, line 191); `async err ret` is a callback-style
factory that invokes its completion `generate(err, ret)` before returning
(lines 202-209). -/
inductive FactoryBehavior where
  | sync (ret : Option Conn)
  | async (err : Option String) (ret : Option Conn)
deriving DecidableEq

/-- The body of the `generate` callback handed to a callback-style factory
(lines 202-209): a factory error completes the allocation with that error; a
missing connection completes with the "failed to generate" error; otherwise
`pending` is incremented, the lifecycle listeners are attached and the
allocation waits for the connection's `connect`-or-`error` signal. -/
def generateCallback (err : Option String) (ret : Option Conn) (m : Manager) :
    AllocResult × Manager :=
  match err with
  | some e => (AllocResult.done (some e) none, m)
  | none =>
    match ret with
    | none => (AllocResult.done (some factoryFailMsg) none, m)
    | some c => (AllocResult.awaiting c, { m with pending := m.pending + 1 })

/-- Result of one `allocate` call: its completion (or waiting state), whether
the factory was invoked, and the manager state when `allocate` returns. -/
structure AllocOut where
  result : AllocResult
  invoked : Bool
  st : Manager
deriving DecidableEq

/-- `Manager.prototype.allocate(fn)` (lines 130-229).  `gen` is
`this.generator` (`none` when no factory was registered).  Steps: fail fast
without a factory; increment the `allocations` metric; scan the pool from the
highest index down, completing with the first connection that scores exactly
100; otherwise, when `pool.length + pending < limit`, invoke the factory
(zero-arity protocol: a falsy return falls through, a connection increments
`pending` and waits; callback protocol: `generateCallback`); otherwise fall
back to the best previously seen probability. -/
def allocate (rand : Conn → Nat) (gen : Option FactoryBehavior) (m : Manager) :
    AllocOut :=
  match gen with
  | none => ⟨AllocResult.done (some noFactoryMsg) none, false, m⟩
  | some fb =>
    let m1 := { m with allocations := m.allocations + 1 }
    match scanLoop rand m1.pool.length m1 [] with
    | ScanRes.hit c st => ⟨AllocResult.done none (some c), false, st⟩
    | ScanRes.nohit st probs =>
      if (st.pool.length : Int) + st.pending < (st.limit : Int) then
        match fb with
        | FactoryBehavior.sync ret =>
          match ret with
          | some c => ⟨AllocResult.awaiting c, true, { st with pending := st.pending + 1 }⟩
          | none => ⟨fallbackResult probs, true, st⟩
        | FactoryBehavior.async err ret =>
          let rc := generateCallback err ret st
          ⟨rc.1, true, rc.2⟩
      else ⟨fallbackResult probs, false, st⟩

/-- The `either` handler defined inside `allocate` (lines 145-154): fired once
by the fresh connection's `connect` or `error` signal.  It detaches both
listeners, pushes the connection onto the pool, decrements `pending` and
calls the completion `fn(err, this)` — in both the connect and the error
case.  The first component is the `(err, connection)` pair handed to the
completion callback. -/
def eitherStep (err : Option String) (c : Conn) (m : Manager) :
    (Option String × Option Conn) × Manager :=
  ((err, some c), { m with pool := m.pool ++ [c], pending := m.pending - 1 })

/-- The loop body of `Manager.prototype.free(keep, hard)` (lines 321-332),
iterating over the snapshot taken of the pool: score each snapshot
connection (with its eviction side effect); keep it when `keep` is nonzero,
fewer than `keep` connections have been saved so far and the score is
exactly 100; otherwise release it with the given hardness. -/
def freeLoop (rand : Conn → Nat) (keep : Nat) (hard : Bool) :
    List Conn → Nat → Manager → Nat × Manager
  | [], saved, m => (saved, m)
  | c :: rest, saved, m =>
    let pm := isAvailable rand m c
    if keep ≠ 0 ∧ saved < keep ∧ pm.1 = 100 then
      freeLoop rand keep hard rest (saved + 1) pm.2
    else
      freeLoop rand keep hard rest saved (release c hard pm.2).2

/-- `Manager.prototype.free(keep, hard)` (lines 311-339): snapshot the pool,
run the keep-or-release loop over the snapshot, return the saved count and
the resulting state (the function then emits a `free` event with the saved
count and remaining pool size). -/
def free (rand : Conn → Nat) (keep : Nat) (hard : Bool) (m : Manager) :
    Nat × Manager :=
  freeLoop rand keep hard m.pool 0 m

/-- One state transition of the manager, as performed by the public entry
points and the internal settlement handler.  The `alloc` step covers
factories that complete before `allocate` returns (the zero-arity protocol
and callback-style factories that call back synchronously); `settle` is the
`either` handler firing; `rel` and `fr` are `release` and `free`.  The
`end` method's effect on this state is `free(0, true)`, an instance of
`fr`. -/
inductive Step : Manager → Manager → Prop where
  | alloc (rand : Conn → Nat) (gen : Option FactoryBehavior) (m : Manager) :
      Step m (allocate rand gen m).st
  | settle (err : Option String) (c : Conn) (m : Manager) :
      Step m (eitherStep err c m).2
  | rel (c : Conn) (hard : Bool) (m : Manager) :
      Step m (release c hard m).2
  | fr (rand : Conn → Nat) (keep : Nat) (hard : Bool) (m : Manager) :
      Step m (free rand keep hard m).2

/-- States reachable from a freshly constructed manager when every factory
call completes before `allocate` returns. -/
inductive Reachable : Manager → Prop where
  | init (limit : Nat) : Reachable (mkManager limit)
  | step {m n : Manager} : Reachable m → Step m n → Reachable n

/-- `allocate` when the registered factory is callback-style but defers its
callback beyond `allocate`'s return (the `generate` callback of lines
202-209 has not yet run): identical to `allocate` up to the point where
`this.generator(generate)` is called. -/
inductive DeferRes where
  | completed (r : AllocResult) (st : Manager)
  | invokedLater (st : Manager)
deriving DecidableEq

/-- The body of `allocate` for a deferring callback-style factory: on
`invokedLater` the generator has been called but `generate` — and hence the
`pending` increment — has not yet run. -/
def allocateDeferred (rand : Conn → Nat) (m : Manager) : DeferRes :=
  let m1 := { m with allocations := m.allocations + 1 }
  match scanLoop rand m1.pool.length m1 [] with
  | ScanRes.hit c st => DeferRes.completed (AllocResult.done none (some c)) st
  | ScanRes.nohit st probs =>
    if (st.pool.length : Int) + st.pending < (st.limit : Int) then
      DeferRes.invokedLater st
    else DeferRes.completed (fallbackResult probs) st

/-- Manager state paired with the number of deferred `generate` callbacks
that have been scheduled by `allocate` but have not yet run. -/
structure DManager where
  mgr : Manager
  outstanding : Nat
deriving DecidableEq

/-- Effect of one `allocate` call with a deferring callback-style factory on
the extended state. -/
def dallocStep (rand : Conn → Nat) (dm : DManager) : DManager :=
  match allocateDeferred rand dm.mgr with
  | DeferRes.completed _ st => ⟨st, dm.outstanding⟩
  | DeferRes.invokedLater st => ⟨st, dm.outstanding + 1⟩

/-- Effect of one deferred `generate` callback finally running. -/
def cbStep (err : Option String) (ret : Option Conn) (dm : DManager) : DManager :=
  ⟨(generateCallback err ret dm.mgr).2, dm.outstanding - 1⟩

/-- Transitions of the pool when the registered factory is callback-style and
may defer its callback: `alloc` schedules a callback (when the factory was
invoked), `cb` runs one scheduled callback, and the remaining steps are as in
`Step`. -/
inductive StepD : DManager → DManager → Prop where
  | alloc (rand : Conn → Nat) (dm : DManager) :
      StepD dm (dallocStep rand dm)
  | cb (err : Option String) (ret : Option Conn) (dm : DManager)
      (h : 1 ≤ dm.outstanding) : StepD dm (cbStep err ret dm)
  | settle (err : Option String) (c : Conn) (dm : DManager) :
      StepD dm ⟨(eitherStep err c dm.mgr).2, dm.outstanding⟩
  | rel (c : Conn) (hard : Bool) (dm : DManager) :
      StepD dm ⟨(release c hard dm.mgr).2, dm.outstanding⟩
  | fr (rand : Conn → Nat) (keep : Nat) (hard : Bool) (dm : DManager) :
      StepD dm ⟨(free rand keep hard dm.mgr).2, dm.outstanding⟩

/-- Reachability for the deferring-factory semantics, from a freshly
constructed manager with no scheduled callbacks. -/
inductive DReach (s : DManager) : DManager → Prop where
  | refl : DReach s s
  | tail {a b : DManager} : DReach s a → StepD a b → DReach s b

/-- State of the shutdown protocol of `Manager.prototype.end` (lines
359-377): the manager, the decrement counters captured by the currently
registered `ending` listeners for `connection:close` (in registration
order), the number of terminal `close` events emitted so far, and the number
of `end` notifications scheduled via `process.nextTick`. -/
structure EMState where
  mgr : Manager
  listeners : List Int
  closeEmits : Nat
  endEmits : Nat
deriving DecidableEq

/-- One call of `end(hard)`: capture `size = this.pool.length`, run
`this.free(0, true)`, schedule the asynchronous `end` notification, and
register a fresh `ending` listener for `connection:close` carrying the
captured size. -/
def endCall (rand : Conn → Nat) (st : EMState) : EMState :=
  let size : Int := st.mgr.pool.length
  { st with
    mgr := (free rand 0 true st.mgr).2
  , listeners := st.listeners ++ [size]
  , endEmits := st.endEmits + 1 }

/-- Deliver one `connection:close` event to the registered `ending` listeners
in order.  Each listener runs `if (--size) return;` on its own captured
counter: when the decremented counter is exactly zero it removes itself and
emits the terminal `close` event; otherwise it stays registered with the
decremented counter.  Returns the surviving listeners and the updated
`close`-emission count. -/
def notifyClose : List Int → Nat → List Int × Nat
  | [], emits => ([], emits)
  | c :: rest, emits =>
    if c - 1 = 0 then notifyClose rest (emits + 1)
    else
      let r := notifyClose rest emits
      ((c - 1) :: r.1, r.2)

/-- One unsolicited `connection:close` notification, as produced by the
`regenerate` lifecycle handler (lines 65-78) of a dying connection: the
connection is removed from the pool via the release path (a no-op when it is
already absent), then `connection:close` is emitted to the listeners. -/
def closeEvent (c : Conn) (st : EMState) : EMState :=
  let mgr := (release c false st.mgr).2
  let r := notifyClose st.listeners st.closeEmits
  { st with mgr := mgr, listeners := r.1, closeEmits := r.2 }

/-- Transitions of the shutdown protocol: an `end` call, or a
`connection:close` notification from some dying connection. -/
inductive EStep : EMState → EMState → Prop where
  | endStep (rand : Conn → Nat) (st : EMState) : EStep st (endCall rand st)
  | closeStep (c : Conn) (st : EMState) : EStep st (closeEvent c st)

/-- Reachability for the shutdown protocol. -/
inductive EReach (s : EMState) : EMState → Prop where
  | refl : EReach s s
  | tail {a b : EMState} : EReach s a → EStep a b → EReach s b

/-- Number of listeners whose captured counter is still positive. -/
def posCount : List Int → Nat
  | [] => 0
  | c :: rest => (if 0 < c then 1 else 0) + posCount rest

/-- A fixed random oracle for concrete evaluations. -/
def rand0 : Conn → Nat := fun _ => 0

def c0ex : Conn := ⟨0, "open", false, 0, 0⟩

def c1ex : Conn := ⟨1, "open", false, 0, 0⟩

def c2ex : Conn := ⟨2, "open", false, 0, 0⟩

def cOpeningEx : Conn := ⟨3, "opening", false, 0, 0⟩

/-- A connection whose destroyed flag is set while its `readyState` is still
`'open'` with no queued writes. -/
def cZombieEx : Conn := ⟨4, "open", true, 0, 0⟩

def cClosedEx : Conn := ⟨5, "closed", false, 0, 0⟩

/-- A writable connection with 30 pending write requests: it scores 70. -/
def cBusyEx : Conn := ⟨6, "open", false, 30, 0⟩

/-- A pool holding two connections that both score exactly 100, in insertion
order `c1ex` then `c2ex`. -/
def mTwoOpen : Manager :=
  { limit := 20, pool := [c1ex, c2ex], pending := 0, allocations := 0, releases := 0 }

def mZombie : Manager :=
  { limit := 20, pool := [cZombieEx], pending := 0, allocations := 0, releases := 0 }

def mClosed : Manager :=
  { limit := 20, pool := [cClosedEx], pending := 0, allocations := 0, releases := 0 }

/-- A full pool (limit 1) holding one busy connection scoring 70. -/
def mBusy : Manager :=
  { limit := 1, pool := [cBusyEx], pending := 0, allocations := 0, releases := 0 }

def mOne : Manager :=
  { limit := 20, pool := [c0ex], pending := 0, allocations := 0, releases := 0 }

/-! ### Counting and first-occurrence removal -/

theorem countc_eq_zero (c : Conn) (l : List Conn) : countc c l = 0 ↔ c ∉ l := by
  induction l with
  | nil => simp [countc]
  | cons x xs ih =>
    by_cases hx : x = c
    · subst hx
      simp [countc]
    · simp only [countc, if_neg hx, List.mem_cons]
      constructor
      · intro h hc
        rcases hc with hc | hc
        · exact hx hc.symm
        · exact (ih.mp (by omega)) hc
      · intro h
        have : c ∉ xs := fun hc => h (Or.inr hc)
        have := ih.mpr this
        omega

theorem mem_of_countc_pos (c : Conn) (l : List Conn) (h : 1 ≤ countc c l) : c ∈ l := by
  by_contra hc
  have := (countc_eq_zero c l).mpr hc
  omega

theorem countc_pos_of_mem (c : Conn) (l : List Conn) (h : c ∈ l) : 1 ≤ countc c l := by
  by_contra hc
  have h0 : countc c l = 0 := by omega
  exact ((countc_eq_zero c l).mp h0) h

theorem countc_removeFirst_self (c : Conn) (l : List Conn) :
    countc c (removeFirst c l) = countc c l - 1 := by
  induction l with
  | nil => simp [countc, removeFirst]
  | cons x xs ih =>
    by_cases hx : x = c
    · subst hx
      simp [removeFirst, countc]
    · simp [removeFirst, countc, hx, ih]

theorem countc_removeFirst_ne (c d : Conn) (l : List Conn) (h : d ≠ c) :
    countc d (removeFirst c l) = countc d l := by
  induction l with
  | nil => simp [removeFirst]
  | cons x xs ih =>
    by_cases hx : x = c
    · subst hx
      simp [removeFirst, countc, if_neg (fun he : x = d => h he.symm)]
    · simp [removeFirst, countc, hx, ih]

theorem countc_removeFirst_le (c d : Conn) (l : List Conn) :
    countc d (removeFirst c l) ≤ countc d l := by
  by_cases h : d = c
  · subst h
    rw [countc_removeFirst_self]
    omega
  · rw [countc_removeFirst_ne c d l h]

theorem removeFirst_of_not_mem (c : Conn) (l : List Conn) (h : c ∉ l) :
    removeFirst c l = l := by
  induction l with
  | nil => simp [removeFirst]
  | cons x xs ih =>
    have hx : x ≠ c := fun he => h (he ▸ List.mem_cons_self x xs)
    have hxs : c ∉ xs := fun hc => h (List.mem_cons_of_mem x hc)
    simp [removeFirst, hx, ih hxs]

theorem length_removeFirst_of_mem (c : Conn) (l : List Conn) (h : c ∈ l) :
    l.length = (removeFirst c l).length + 1 := by
  induction l with
  | nil => simp at h
  | cons x xs ih =>
    by_cases hx : x = c
    · subst hx
      simp [removeFirst]
    · have hxs : c ∈ xs := by
        rcases List.mem_cons.mp h with hc | hc
        · exact absurd hc.symm hx
        · exact hc
      simp [removeFirst, hx, ih hxs]

theorem length_removeFirst_le (c : Conn) (l : List Conn) :
    (removeFirst c l).length ≤ l.length := by
  by_cases h : c ∈ l
  · have := length_removeFirst_of_mem c l h
    omega
  · rw [removeFirst_of_not_mem c l h]

theorem mem_of_getElemQ {α : Type} : ∀ (l : List α) (i : Nat) (a : α),
    l[i]? = some a → a ∈ l := by
  intro l
  induction l with
  | nil => intro i a h; simp at h
  | cons x xs ih =>
    intro i a h
    cases i with
    | zero =>
      simp at h
      exact h ▸ List.mem_cons_self x xs
    | succ j =>
      simp at h
      exact List.mem_cons_of_mem x (ih j a h)

theorem removeFirst_at_index (l : List Conn) :
    ∀ (i : Nat) (a : Conn), (∀ d, countc d l ≤ 1) → l[i]? = some a →
      (removeFirst a l).take i = l.take i ∧
      l.length = (removeFirst a l).length + 1 ∧
      (∀ d, countc d (removeFirst a l) ≤ 1) := by
  induction l with
  | nil => intro i a _ h; simp at h
  | cons x xs ih =>
    intro i a hcnt h
    have hcnt' : ∀ d, countc d xs ≤ 1 := by
      intro d
      have := hcnt d
      simp [countc] at this
      by_cases hd : x = d <;> simp [hd] at this <;> omega
    cases i with
    | zero =>
      simp at h
      subst h
      refine ⟨by simp, by simp [removeFirst], ?_⟩
      intro d
      calc countc d (removeFirst x (x :: xs)) ≤ countc d (x :: xs) :=
            countc_removeFirst_le x d (x :: xs)
        _ ≤ 1 := hcnt d
      -- the first conjunct: take 0 on both sides
    | succ j =>
      simp only [List.getElem?_cons_succ] at h
      have hmem : a ∈ xs := mem_of_getElemQ xs j a h
      have hax : x ≠ a := by
        intro he
        subst he
        have := hcnt x
        have h1 := countc_pos_of_mem x xs hmem
        simp [countc] at this
        omega
      obtain ⟨h1, h2, h3⟩ := ih j a hcnt' h
      refine ⟨?_, ?_, ?_⟩
      · simp [removeFirst, hax, List.take_succ_cons, h1]
      · have hrw : removeFirst a (x :: xs) = x :: removeFirst a xs := by
          simp [removeFirst, hax]
        rw [hrw]
        simp only [List.length_cons]
        omega
      · intro d
        simp only [removeFirst, if_neg hax, countc]
        have := h3 d
        have hle := countc_removeFirst_le a d xs
        have hx := hcnt d
        simp [countc] at hx
        by_cases hd : x = d <;> simp [hd] at hx ⊢ <;> omega

theorem not_mem_removeFirst_of_count_le_one (c : Conn) (l : List Conn)
    (h : countc c l ≤ 1) : c ∉ removeFirst c l := by
  have := countc_removeFirst_self c l
  have h0 : countc c (removeFirst c l) = 0 := by omega
  exact (countc_eq_zero c (removeFirst c l)).mp h0

/-! ### Release lemmas -/

theorem release_pool (c : Conn) (hard : Bool) (m : Manager) :
    ((release c hard m).2).pool = if c ∈ m.pool then removeFirst c m.pool else m.pool := by
  by_cases h : c ∈ m.pool <;> simp [release, h]

theorem release_preserves (c : Conn) (hard : Bool) (m : Manager) :
    ((release c hard m).2).pending = m.pending ∧
    ((release c hard m).2).limit = m.limit ∧
    ((release c hard m).2).allocations = m.allocations := by
  by_cases h : c ∈ m.pool <;> simp [release, h]

theorem release_countc_le (c d : Conn) (hard : Bool) (m : Manager) :
    countc d ((release c hard m).2).pool ≤ countc d m.pool := by
  rw [release_pool]
  by_cases h : c ∈ m.pool <;> simp [h]
  exact countc_removeFirst_le c d m.pool

theorem release_countc_self (c : Conn) (hard : Bool) (m : Manager) :
    countc c ((release c hard m).2).pool = countc c m.pool - 1 := by
  rw [release_pool]
  by_cases h : c ∈ m.pool <;> simp [h]
  · exact countc_removeFirst_self c m.pool
  · have := (countc_eq_zero c m.pool).mpr h
    omega

theorem release_length_le (c : Conn) (hard : Bool) (m : Manager) :
    ((release c hard m).2).pool.length ≤ m.pool.length := by
  rw [release_pool]
  by_cases h : c ∈ m.pool <;> simp [h]
  exact length_removeFirst_le c m.pool

theorem release_pool_nil (c : Conn) (hard : Bool) (m : Manager) (h : m.pool = []) :
    ((release c hard m).2).pool = [] := by
  rw [release_pool, h]
  simp

/-! ### Scorer lemmas -/

theorem isAvailable_state (rand : Conn → Nat) (m : Manager) (c : Conn) :
    (isAvailable rand m c).2 = m ∨ (isAvailable rand m c).2 = (release c false m).2 := by
  unfold isAvailable
  split_ifs <;> simp

theorem isAvailable_preserves (rand : Conn → Nat) (m : Manager) (c : Conn) :
    (isAvailable rand m c).2.pending = m.pending ∧
    (isAvailable rand m c).2.limit = m.limit ∧
    (isAvailable rand m c).2.allocations = m.allocations ∧
    (isAvailable rand m c).2.pool.length ≤ m.pool.length ∧
    (∀ d, countc d (isAvailable rand m c).2.pool ≤ countc d m.pool) := by
  rcases isAvailable_state rand m c with h | h <;> rw [h]
  · exact ⟨rfl, rfl, rfl, le_refl _, fun d => le_refl _⟩
  · obtain ⟨hp, hl, ha⟩ := release_preserves c false m
    exact ⟨hp, hl, ha, release_length_le c false m, fun d => release_countc_le c d false m⟩

theorem isAvailable_hit (rand : Conn → Nat) (m : Manager) (c : Conn)
    (h : score100 c = true) : isAvailable rand m c = (100, m) := by
  simp only [score100] at h
  unfold isAvailable
  rw [if_pos h]

theorem isAvailable_ne100 (rand : Conn → Nat) (m : Manager) (c : Conn)
    (h : score100 c = false) : (isAvailable rand m c).1 ≠ 100 := by
  simp only [score100] at h
  unfold isAvailable
  split_ifs with h1 h2 h3 h4 h5
  · rw [h] at h1
    exact Bool.noConfusion h1
  · simp
  · simp
  · simp
  · have hwr : writable c = true := by
      cases hwb : writable c
      · rw [hwb] at h3
        simp at h3
      · rfl
    have hwc : writeCount c ≠ 0 := by
      intro h0
      rw [hwr, h0] at h
      simp at h
    simp only []
    omega
  · have hlt : rand c % 70 < 70 := Nat.mod_lt _ (by omega)
    simp only []
    omega

/-! ### Scan-loop lemmas -/

theorem scanLoop_preserves (rand : Conn → Nat) :
    ∀ (i : Nat) (st : Manager) (probs : List (Nat × Conn)),
      (stOf (scanLoop rand i st probs)).pending = st.pending ∧
      (stOf (scanLoop rand i st probs)).limit = st.limit ∧
      (stOf (scanLoop rand i st probs)).allocations = st.allocations ∧
      (stOf (scanLoop rand i st probs)).pool.length ≤ st.pool.length ∧
      (∀ d, countc d (stOf (scanLoop rand i st probs)).pool ≤ countc d st.pool) := by
  intro i
  induction i with
  | zero =>
    intro st probs
    exact ⟨rfl, rfl, rfl, le_refl _, fun d => le_refl _⟩
  | succ j ih =>
    intro st probs
    cases hg : st.pool[j]? with
    | none =>
      have h := ih st probs
      simpa [scanLoop, hg] using h
    | some c =>
      obtain ⟨ap, al, aa, alen, acnt⟩ := isAvailable_preserves rand st c
      by_cases hp : (isAvailable rand st c).1 = 100
      · simp only [scanLoop, hg, hp, if_pos]
        exact ⟨ap, al, aa, alen, acnt⟩
      · simp only [scanLoop, hg, if_neg hp]
        obtain ⟨bp, bl, ba, blen, bcnt⟩ :=
          ih (isAvailable rand st c).2 (probs ++ [((isAvailable rand st c).1, c)])
        exact ⟨bp.trans ap, bl.trans al, ba.trans aa, blen.trans alen,
          fun d => (bcnt d).trans (acnt d)⟩

theorem scanLoop_find_hit (rand : Conn → Nat) (c : Conn) :
    ∀ (i : Nat) (st : Manager) (probs : List (Nat × Conn)),
      (∀ d, countc d st.pool ≤ 1) → i ≤ st.pool.length →
      List.find? score100 ((st.pool.take i).reverse) = some c →
      ∃ st2, scanLoop rand i st probs = ScanRes.hit c st2 := by
  intro i
  induction i with
  | zero =>
    intro st probs _ _ hf
    simp at hf
  | succ j ih =>
    intro st probs hcnt hle hf
    have hj : j < st.pool.length := by omega
    have hg : st.pool[j]? = some st.pool[j] := List.getElem?_eq_getElem hj
    have htake : st.pool.take (j + 1) = st.pool.take j ++ [st.pool[j]] := by
      rw [List.take_succ, hg]
      rfl
    rw [htake, List.reverse_append] at hf
    simp only [List.reverse_singleton, List.singleton_append] at hf
    by_cases hs : score100 (st.pool[j]) = true
    · rw [List.find?_cons_of_pos _ hs] at hf
      have hc : c = st.pool[j] := by
        injection hf with hf
        exact hf.symm
      subst hc
      refine ⟨st, ?_⟩
      simp [scanLoop, hg, isAvailable_hit rand st _ hs]
    · have hsf : score100 (st.pool[j]) = false := by
        cases hb : score100 (st.pool[j])
        · rfl
        · exact absurd hb hs
      rw [List.find?_cons_of_neg _ (by simp [hsf])] at hf
      have hne := isAvailable_ne100 rand st (st.pool[j]) hsf
      rcases isAvailable_state rand st (st.pool[j]) with hst | hst
      · obtain ⟨st2, h2⟩ := ih (isAvailable rand st (st.pool[j])).2
          (probs ++ [((isAvailable rand st (st.pool[j])).1, st.pool[j])])
          (by rw [hst]; exact hcnt) (by rw [hst]; omega)
          (by rw [hst]; exact hf)
        refine ⟨st2, ?_⟩
        simp only [scanLoop, hg, if_neg hne]
        exact h2
      · have hmem : st.pool[j] ∈ st.pool := st.pool.getElem_mem hj
        have hrel : ((release (st.pool[j]) false st).2).pool =
            removeFirst (st.pool[j]) st.pool := by
          rw [release_pool, if_pos hmem]
        obtain ⟨ht, hlen, hcnt2⟩ := removeFirst_at_index st.pool j (st.pool[j]) hcnt hg
        obtain ⟨st2, h2⟩ := ih (isAvailable rand st (st.pool[j])).2
          (probs ++ [((isAvailable rand st (st.pool[j])).1, st.pool[j])])
          (by rw [hst, hrel]; exact hcnt2)
          (by rw [hst, hrel]; omega)
          (by rw [hst, hrel, ht]; exact hf)
        refine ⟨st2, ?_⟩
        simp only [scanLoop, hg, if_neg hne]
        exact h2

/-! ### Sort-and-pop lemmas -/

theorem insertAsc_ne_nil (x : Nat × Conn) (l : List (Nat × Conn)) :
    insertAsc x l ≠ [] := by
  cases l with
  | nil => simp [insertAsc]
  | cons y ys =>
    simp only [insertAsc]
    split_ifs <;> simp

theorem mem_insertAsc (a x : Nat × Conn) (l : List (Nat × Conn)) :
    a ∈ insertAsc x l ↔ a = x ∨ a ∈ l := by
  induction l with
  | nil => simp [insertAsc]
  | cons y ys ih =>
    simp only [insertAsc]
    split_ifs with h <;> simp [List.mem_cons, ih] <;> tauto

theorem mem_sortProbs (a : Nat × Conn) (l : List (Nat × Conn)) :
    a ∈ sortProbs l ↔ a ∈ l := by
  induction l with
  | nil => simp [sortProbs]
  | cons x xs ih => simp [sortProbs, mem_insertAsc, ih]

theorem sortProbs_ne_nil (l : List (Nat × Conn)) (h : l ≠ []) : sortProbs l ≠ [] := by
  cases l with
  | nil => exact absurd rfl h
  | cons x xs =>
    simp only [sortProbs]
    exact insertAsc_ne_nil x _

theorem pairwise_insertAsc (x : Nat × Conn) (l : List (Nat × Conn))
    (h : l.Pairwise (fun a b => a.1 ≤ b.1)) :
    (insertAsc x l).Pairwise (fun a b => a.1 ≤ b.1) := by
  induction l with
  | nil => simp [insertAsc]
  | cons y ys ih =>
    rcases List.pairwise_cons.mp h with ⟨hy, hys⟩
    simp only [insertAsc]
    split_ifs with hlt
    · refine List.pairwise_cons.mpr ⟨?_, h⟩
      intro b hb
      rcases List.mem_cons.mp hb with hb | hb
      · rw [hb]
        omega
      · have := hy b hb
        omega
    · refine List.pairwise_cons.mpr ⟨?_, ih hys⟩
      intro b hb
      rcases (mem_insertAsc b x ys).mp hb with hb | hb
      · rw [hb]
        omega
      · exact hy b hb

theorem sortProbs_pairwise (l : List (Nat × Conn)) :
    (sortProbs l).Pairwise (fun a b => a.1 ≤ b.1) := by
  induction l with
  | nil => simp [sortProbs]
  | cons x xs ih => exact pairwise_insertAsc x _ ih

theorem lastEntry_mem : ∀ (l : List (Nat × Conn)) (z : Nat × Conn),
    lastEntry l = some z → z ∈ l := by
  intro l
  induction l with
  | nil =>
    intro z h
    simp [lastEntry] at h
  | cons x xs ih =>
    intro z h
    cases xs with
    | nil =>
      simp [lastEntry] at h
      exact h ▸ List.mem_cons_self x []
    | cons y ys =>
      simp only [lastEntry] at h
      exact List.mem_cons_of_mem x (ih z h)

theorem lastEntry_of_ne_nil : ∀ (l : List (Nat × Conn)), l ≠ [] →
    ∃ z, lastEntry l = some z := by
  intro l
  induction l with
  | nil => intro h; exact absurd rfl h
  | cons x xs ih =>
    intro _
    cases xs with
    | nil => exact ⟨x, rfl⟩
    | cons y ys =>
      obtain ⟨z, hz⟩ := ih (by simp)
      refine ⟨z, ?_⟩
      simp only [lastEntry]
      exact hz

theorem lastEntry_max : ∀ (l : List (Nat × Conn)),
    l.Pairwise (fun a b => a.1 ≤ b.1) →
    ∀ z, lastEntry l = some z → ∀ q ∈ l, q.1 ≤ z.1 := by
  intro l
  induction l with
  | nil =>
    intro _ z h
    simp [lastEntry] at h
  | cons x xs ih =>
    intro hp z hz q hq
    rcases List.pairwise_cons.mp hp with ⟨hx, hxs⟩
    cases xs with
    | nil =>
      simp [lastEntry] at hz
      rcases List.mem_cons.mp hq with hq | hq
      · rw [hq, ← hz]
      · simp at hq
    | cons y ys =>
      simp only [lastEntry] at hz
      have hzmem : z ∈ y :: ys := lastEntry_mem _ z hz
      rcases List.mem_cons.mp hq with hq | hq
      · rw [hq]
        exact hx z hzmem
      · exact ih hxs z hz q hq

/-! ### Free-loop lemmas -/

theorem freeLoop_preserves (rand : Conn → Nat) (keep : Nat) (hard : Bool) :
    ∀ (snap : List Conn) (saved : Nat) (m : Manager),
      ((freeLoop rand keep hard snap saved m).2).pending = m.pending ∧
      ((freeLoop rand keep hard snap saved m).2).limit = m.limit ∧
      ((freeLoop rand keep hard snap saved m).2).allocations = m.allocations ∧
      ((freeLoop rand keep hard snap saved m).2).pool.length ≤ m.pool.length ∧
      (∀ d, countc d ((freeLoop rand keep hard snap saved m).2).pool ≤ countc d m.pool) := by
  intro snap
  induction snap with
  | nil =>
    intro saved m
    exact ⟨rfl, rfl, rfl, le_refl _, fun d => le_refl _⟩
  | cons c rest ih =>
    intro saved m
    obtain ⟨ap, al, aa, alen, acnt⟩ := isAvailable_preserves rand m c
    simp only [freeLoop]
    split_ifs with h
    · obtain ⟨bp, bl, ba, blen, bcnt⟩ := ih (saved + 1) (isAvailable rand m c).2
      exact ⟨bp.trans ap, bl.trans al, ba.trans aa, blen.trans alen,
        fun d => (bcnt d).trans (acnt d)⟩
    · obtain ⟨rp, rl, ra⟩ := release_preserves c hard (isAvailable rand m c).2
      have rlen := release_length_le c hard (isAvailable rand m c).2
      have rcnt := fun d => release_countc_le c d hard (isAvailable rand m c).2
      obtain ⟨bp, bl, ba, blen, bcnt⟩ :=
        ih saved (release c hard (isAvailable rand m c).2).2
      exact ⟨(bp.trans rp).trans ap, (bl.trans rl).trans al, (ba.trans ra).trans aa,
        (blen.trans rlen).trans alen, fun d => ((bcnt d).trans (rcnt d)).trans (acnt d)⟩

theorem freeLoop_zero_empties (rand : Conn → Nat) (hard : Bool) :
    ∀ (snap : List Conn) (saved : Nat) (m : Manager),
      (∀ d, countc d m.pool ≤ countc d snap) →
      ((freeLoop rand 0 hard snap saved m).2).pool = [] := by
  intro snap
  induction snap with
  | nil =>
    intro saved m h
    have hz : ∀ d, countc d m.pool = 0 := by
      intro d
      have := h d
      simp [countc] at this
      exact this
    cases hp : m.pool with
    | nil => simp [freeLoop, hp]
    | cons a as =>
      exfalso
      have := hz a
      rw [hp] at this
      simp [countc] at this
  | cons c rest ih =>
    intro saved m h
    simp only [freeLoop]
    rw [if_neg (by simp)]
    apply ih
    intro d
    have h2 := (isAvailable_preserves rand m c).2.2.2.2 d
    have h3 := h d
    by_cases hd : d = c
    · rw [hd] at h2 h3 ⊢
      have h1 := release_countc_self c hard (isAvailable rand m c).2
      simp [countc] at h3
      omega
    · have h1 := release_countc_le c d hard (isAvailable rand m c).2
      have hcd : ¬ (c = d) := fun he => hd he.symm
      simp [countc, hcd] at h3
      omega

theorem free_zero_empties (rand : Conn → Nat) (hard : Bool) (m : Manager) :
    ((free rand 0 hard m).2).pool = [] := by
  exact freeLoop_zero_empties rand hard m.pool 0 m (fun d => le_refl _)

/-! ### Allocate lemmas -/

theorem allocate_allocations_some (rand : Conn → Nat) (fb : FactoryBehavior) (m : Manager) :
    (allocate rand (some fb) m).st.allocations = m.allocations + 1 := by
  have hpres := scanLoop_preserves rand
    (({ m with allocations := m.allocations + 1 } : Manager)).pool.length
    ({ m with allocations := m.allocations + 1 }) []
  simp only [allocate]
  split
  next c st hs =>
    rw [hs] at hpres
    simp only [stOf] at hpres
    exact hpres.2.2.1
  next st probs hs =>
    rw [hs] at hpres
    simp only [stOf] at hpres
    have ha : st.allocations = m.allocations + 1 := hpres.2.2.1
    split_ifs with hcap
    · cases fb with
      | sync ret =>
        cases ret with
        | some c => exact ha
        | none => exact ha
      | async err ret =>
        cases err with
        | some e => simpa [generateCallback] using ha
        | none =>
          cases ret with
          | none => simpa [generateCallback] using ha
          | some c => simpa [generateCallback] using ha
    · exact ha

theorem allocate_allocations_none (rand : Conn → Nat) (m : Manager) :
    (allocate rand none m).st.allocations = m.allocations := rfl

theorem allocate_invoked_capacity (rand : Conn → Nat) (gen : Option FactoryBehavior)
    (m : Manager) (h : (allocate rand gen m).invoked = true) :
    ∃ st probs,
      scanLoop rand (({ m with allocations := m.allocations + 1 } : Manager)).pool.length
        ({ m with allocations := m.allocations + 1 }) [] = ScanRes.nohit st probs ∧
      (st.pool.length : Int) + st.pending < (st.limit : Int) := by
  cases gen with
  | none => exact absurd h (by simp [allocate])
  | some fb =>
    simp only [allocate] at h
    split at h
    next c st hs =>
      simp at h
    next st probs hs =>
      refine ⟨st, probs, hs, ?_⟩
      by_cases hcap : (st.pool.length : Int) + st.pending < (st.limit : Int)
      · exact hcap
      · rw [if_neg hcap] at h
        simp at h

theorem allocate_capacity (rand : Conn → Nat) (gen : Option FactoryBehavior) (m : Manager)
    (h : (m.pool.length : Int) + m.pending ≤ (m.limit : Int)) :
    ((allocate rand gen m).st.pool.length : Int) + (allocate rand gen m).st.pending ≤
      ((allocate rand gen m).st.limit : Int) := by
  cases gen with
  | none => exact h
  | some fb =>
    have hpres := scanLoop_preserves rand
      (({ m with allocations := m.allocations + 1 } : Manager)).pool.length
      ({ m with allocations := m.allocations + 1 }) []
    simp only [allocate]
    split
    next c st hs =>
      rw [hs] at hpres
      simp only [stOf] at hpres
      obtain ⟨hp, hl, _, hlen, _⟩ := hpres
      show (st.pool.length : Int) + st.pending ≤ (st.limit : Int)
      omega
    next st probs hs =>
      rw [hs] at hpres
      simp only [stOf] at hpres
      obtain ⟨hp, hl, _, hlen, _⟩ := hpres
      have hinv : (st.pool.length : Int) + st.pending ≤ (st.limit : Int) := by omega
      split_ifs with hcap
      · cases fb with
        | sync ret =>
          cases ret with
          | some c =>
            show (st.pool.length : Int) + (st.pending + 1) ≤ (st.limit : Int)
            omega
          | none => exact hinv
        | async err ret =>
          cases err with
          | some e => exact hinv
          | none =>
            cases ret with
            | none => exact hinv
            | some c =>
              show (st.pool.length : Int) + (st.pending + 1) ≤ (st.limit : Int)
              omega
      · exact hinv

theorem allocate_fallback (rand : Conn → Nat) (fb : FactoryBehavior) (m st : Manager)
    (probs : List (Nat × Conn))
    (hs : scanLoop rand (({ m with allocations := m.allocations + 1 } : Manager)).pool.length
      ({ m with allocations := m.allocations + 1 }) [] = ScanRes.nohit st probs)
    (hcase : ¬ ((st.pool.length : Int) + st.pending < (st.limit : Int)) ∨
      fb = FactoryBehavior.sync none) :
    (allocate rand (some fb) m).result = fallbackResult probs := by
  simp only [allocate]
  split
  next c st2 hs2 =>
    rw [hs] at hs2
    exact ScanRes.noConfusion hs2
  next st2 probs2 hs2 =>
    rw [hs] at hs2
    injection hs2 with h1 h2
    subst h1
    subst h2
    rcases hcase with hcap | hfb
    · rw [if_neg hcap]
    · subst hfb
      split_ifs with hcap
      · rfl
      · rfl

theorem fallbackResult_spec (probs : List (Nat × Conn)) :
    (∃ p c, (p, c) ∈ probs ∧ 60 ≤ p ∧ (∀ q d, (q, d) ∈ probs → q ≤ p) ∧
        fallbackResult probs = AllocResult.done none (some c))
    ∨ ((∀ q d, (q, d) ∈ probs → q < 60) ∧
        fallbackResult probs = AllocResult.done (some poolFullMsg) none) := by
  cases hl : lastEntry (sortProbs probs) with
  | none =>
    right
    have hnil : probs = [] := by
      by_contra hne
      obtain ⟨z, hz⟩ := lastEntry_of_ne_nil (sortProbs probs) (sortProbs_ne_nil probs hne)
      rw [hl] at hz
      exact Option.noConfusion hz
    subst hnil
    refine ⟨?_, by simp [fallbackResult, hl]⟩
    intro q d hq
    simp at hq
  | some pc =>
    have hmem : pc ∈ probs := (mem_sortProbs pc probs).mp (lastEntry_mem _ pc hl)
    have hmax : ∀ q d, (q, d) ∈ probs → q ≤ pc.1 := by
      intro q d hq
      exact lastEntry_max (sortProbs probs) (sortProbs_pairwise probs) pc hl (q, d)
        ((mem_sortProbs (q, d) probs).mpr hq)
    by_cases h60 : 60 ≤ pc.1
    · left
      exact ⟨pc.1, pc.2, by simpa using hmem, h60, hmax,
        by simp [fallbackResult, hl, h60]⟩
    · right
      refine ⟨?_, by simp [fallbackResult, hl, h60]⟩
      intro q d hq
      have := hmax q d hq
      omega

/-! ### The reachable-state capacity invariant -/

theorem step_capacity {m n : Manager} (hs : Step m n)
    (h : (m.pool.length : Int) + m.pending ≤ (m.limit : Int)) :
    (n.pool.length : Int) + n.pending ≤ (n.limit : Int) := by
  cases hs with
  | alloc rand gen m => exact allocate_capacity rand gen m h
  | settle err c m =>
    simp only [eitherStep, List.length_append, List.length_singleton]
    push_cast
    omega
  | rel c hard m =>
    obtain ⟨hp, hl, _⟩ := release_preserves c hard m
    have hlen := release_length_le c hard m
    omega
  | fr rand keep hard m =>
    obtain ⟨hp, hl, _, hlen, _⟩ := freeLoop_preserves rand keep hard m.pool 0 m
    simp only [free]
    omega

theorem reachable_capacity (m : Manager) (h : Reachable m) :
    (m.pool.length : Int) + m.pending ≤ (m.limit : Int) := by
  induction h with
  | init l =>
    simp [mkManager]
    split_ifs <;> omega
  | step hr hs ih => exact step_capacity hs ih

/-! ### Shutdown-protocol lemmas -/

theorem posCount_append (a b : List Int) :
    posCount (a ++ b) = posCount a + posCount b := by
  induction a with
  | nil => simp [posCount]
  | cons c rest ih => simp [posCount, ih, Nat.add_assoc]

theorem notifyClose_sum : ∀ (ls : List Int) (emits : Nat),
    (notifyClose ls emits).2 + posCount (notifyClose ls emits).1 =
      emits + posCount ls := by
  intro ls
  induction ls with
  | nil =>
    intro emits
    simp [notifyClose, posCount]
  | cons c rest ih =>
    intro emits
    simp only [notifyClose]
    split_ifs with h
    · have hih := ih (emits + 1)
      simp only [posCount]
      split_ifs with h2
      · omega
      · omega
    · have hih := ih emits
      simp only [posCount]
      split_ifs with h1 h2 h2 <;> omega

theorem notifyClose_nonpos : ∀ (ls : List Int) (emits : Nat),
    (∀ c ∈ ls, c ≤ 0) →
    (notifyClose ls emits).2 = emits ∧ (∀ c ∈ (notifyClose ls emits).1, c ≤ 0) := by
  intro ls
  induction ls with
  | nil =>
    intro emits _
    exact ⟨rfl, by simp [notifyClose]⟩
  | cons c rest ih =>
    intro emits h
    have hc : c ≤ 0 := h c (List.mem_cons_self c rest)
    have hrest : ∀ x ∈ rest, x ≤ 0 := fun x hx => h x (List.mem_cons_of_mem c hx)
    simp only [notifyClose]
    rw [if_neg (by omega)]
    obtain ⟨h1, h2⟩ := ih emits hrest
    refine ⟨h1, ?_⟩
    intro x hx
    rcases List.mem_cons.mp hx with hx | hx
    · omega
    · exact h2 x hx

theorem estep_inv9 {a b : EMState} (hs : EStep a b)
    (h1 : a.closeEmits + posCount a.listeners ≤ 1)
    (h2 : a.mgr.pool ≠ [] → a.closeEmits + posCount a.listeners = 0) :
    b.closeEmits + posCount b.listeners ≤ 1 ∧
      (b.mgr.pool ≠ [] → b.closeEmits + posCount b.listeners = 0) := by
  cases hs with
  | endStep rand st =>
    have hpool : ((free rand 0 true a.mgr).2).pool = [] :=
      free_zero_empties rand true a.mgr
    simp only [endCall, posCount_append]
    by_cases hp : a.mgr.pool = []
    · have hsize : (a.mgr.pool.length : Int) = 0 := by simp [hp]
      rw [hsize]
      simp only [posCount]
      constructor
      · simp only [show ¬ ((0 : Int) < 0) by omega, if_false]
        omega
      · intro hne
        exact absurd hpool hne
    · have hz := h2 hp
      constructor
      · have : posCount [(a.mgr.pool.length : Int)] ≤ 1 := by
          simp only [posCount]
          split_ifs <;> omega
        omega
      · intro hne
        exact absurd hpool hne
  | closeStep c st =>
    have hsum := notifyClose_sum a.listeners a.closeEmits
    simp only [closeEvent]
    constructor
    · omega
    · intro hne
      have hbefore : a.mgr.pool ≠ [] := by
        intro hnil
        exact hne (release_pool_nil c false a.mgr hnil)
      have := h2 hbefore
      omega

theorem ereach_inv9 (s0 : EMState) (hls : s0.listeners = []) (hce : s0.closeEmits = 0) :
    ∀ st, EReach s0 st →
      st.closeEmits + posCount st.listeners ≤ 1 ∧
      (st.mgr.pool ≠ [] → st.closeEmits + posCount st.listeners = 0) := by
  intro st h
  induction h with
  | refl =>
    rw [hls, hce]
    simp [posCount]
  | tail hr hs ih => exact estep_inv9 hs ih.1 ih.2

theorem estep_inv10 {a b : EMState} (hs : EStep a b)
    (h1 : a.mgr.pool = []) (h2 : ∀ c ∈ a.listeners, c ≤ 0) (h3 : a.closeEmits = 0) :
    b.mgr.pool = [] ∧ (∀ c ∈ b.listeners, c ≤ 0) ∧ b.closeEmits = 0 := by
  cases hs with
  | endStep rand st =>
    refine ⟨free_zero_empties rand true a.mgr, ?_, h3⟩
    intro c hc
    simp only [endCall] at hc
    rcases List.mem_append.mp hc with hc | hc
    · exact h2 c hc
    · simp only [List.mem_singleton] at hc
      rw [hc, h1]
      simp
  | closeStep c st =>
    obtain ⟨hn1, hn2⟩ := notifyClose_nonpos a.listeners a.closeEmits h2
    refine ⟨release_pool_nil c false a.mgr h1, hn2, ?_⟩
    show (notifyClose a.listeners a.closeEmits).2 = 0
    rw [hn1]
    exact h3

theorem ereach_inv10 (s0 : EMState) (hpool : s0.mgr.pool = [])
    (hls : s0.listeners = []) (hce : s0.closeEmits = 0) :
    ∀ st, EReach s0 st →
      st.mgr.pool = [] ∧ (∀ c ∈ st.listeners, c ≤ 0) ∧ st.closeEmits = 0 := by
  intro st h
  induction h with
  | refl => exact ⟨hpool, by rw [hls]; simp, hce⟩
  | tail hr hs ih => exact estep_inv10 hs ih.1 ih.2.1 ih.2.2

theorem countc_singleton_le_one (a d : Conn) : countc d [a] ≤ 1 := by
  simp only [countc]
  split_ifs <;> omega

theorem countc_pair_le_one (a b d : Conn) (h : a ≠ b) : countc d [a, b] ≤ 1 := by
  by_cases h1 : a = d
  · by_cases h2 : b = d
    · exact absurd (h1.trans h2.symm) h
    · simp [countc, h1, h2]
  · by_cases h2 : b = d <;> simp [countc, h1, h2]

/-! ### Claim theorems -/

/-- C1 (amended): when every factory call completes before `allocate`
returns, every reachable manager state satisfies
`pool.length + pending ≤ limit`; `allocate` invokes the factory only when
the post-scan state satisfies `pool.length + pending < limit`; and the
`either` settlement handler always performs a pool insertion together with a
`pending` decrement. -/
theorem capacity_invariant :
    (∀ m : Manager, Reachable m →
      (m.pool.length : Int) + m.pending ≤ (m.limit : Int)) ∧
    (∀ (rand : Conn → Nat) (gen : Option FactoryBehavior) (m : Manager),
      (allocate rand gen m).invoked = true →
      ∃ st probs,
        scanLoop rand (({ m with allocations := m.allocations + 1 } : Manager)).pool.length
          ({ m with allocations := m.allocations + 1 }) [] = ScanRes.nohit st probs ∧
        (st.pool.length : Int) + st.pending < (st.limit : Int)) ∧
    (∀ (err : Option String) (c : Conn) (m : Manager),
      ((eitherStep err c m).2).pool = m.pool ++ [c] ∧
      ((eitherStep err c m).2).pending = m.pending - 1) :=
  ⟨reachable_capacity, allocate_invoked_capacity, fun err c m => ⟨rfl, rfl⟩⟩

/-- Witness for C1: the invariant at a freshly constructed manager, and a
concrete allocation (empty pool, limit 1, synchronous factory) that invokes
the factory with the capacity gate satisfied. -/
theorem capacity_invariant_witness :
    (((mkManager 3).pool.length : Int) + (mkManager 3).pending ≤
      ((mkManager 3).limit : Int)) ∧
    (∃ st probs,
      scanLoop rand0
        (({ mkManager 1 with allocations := (mkManager 1).allocations + 1 } : Manager)).pool.length
        ({ mkManager 1 with allocations := (mkManager 1).allocations + 1 }) [] =
        ScanRes.nohit st probs ∧
      (st.pool.length : Int) + st.pending < (st.limit : Int)) :=
  ⟨capacity_invariant.1 (mkManager 3) (Reachable.init 3),
   capacity_invariant.2.1 rand0 (some (FactoryBehavior.sync (some c0ex)))
     (mkManager 1) (by decide)⟩

/-- Counterexample to C1 as stated: with a callback-style factory that defers
its callback, two `allocate` calls on a fresh limit-1 manager both pass the
capacity gate before either runs `pending++`; after both callbacks run, the
state (reachable in the deferring semantics) has `pending = 2 > limit = 1`. -/
theorem capacity_deferred_counterexample :
    DReach ⟨mkManager 1, 0⟩
      (cbStep none (some c2ex) (cbStep none (some c1ex)
        (dallocStep rand0 (dallocStep rand0 ⟨mkManager 1, 0⟩)))) ∧
    ¬ (((cbStep none (some c2ex) (cbStep none (some c1ex)
          (dallocStep rand0 (dallocStep rand0 ⟨mkManager 1, 0⟩)))).mgr.pool.length : Int) +
        (cbStep none (some c2ex) (cbStep none (some c1ex)
          (dallocStep rand0 (dallocStep rand0 ⟨mkManager 1, 0⟩)))).mgr.pending ≤
        ((cbStep none (some c2ex) (cbStep none (some c1ex)
          (dallocStep rand0 (dallocStep rand0 ⟨mkManager 1, 0⟩)))).mgr.limit : Int)) :=
  ⟨DReach.tail
    (DReach.tail
      (DReach.tail (DReach.tail DReach.refl (StepD.alloc rand0 _)) (StepD.alloc rand0 _))
      (StepD.cb none (some c1ex) _ (by decide)))
    (StepD.cb none (some c2ex) _ (by decide)),
   by decide⟩

/-- C2 (amended): the `either` settlement handler pushes the fresh connection
into the pool and decrements `pending` in both cases.  On a `connect` signal
the allocation completes with the connection; on an `error` signal it
completes with that error — but the connection is still added to the pool
(contrary to the original claim), and `pending` is still decremented. -/
theorem either_settlement (err : Option String) (c : Conn) (m : Manager) :
    (err = none →
      (eitherStep err c m).1 = (none, some c) ∧
      c ∈ ((eitherStep err c m).2).pool ∧
      ((eitherStep err c m).2).pending = m.pending - 1) ∧
    (∀ e, err = some e →
      (eitherStep err c m).1 = (some e, some c) ∧
      c ∈ ((eitherStep err c m).2).pool ∧
      ((eitherStep err c m).2).pending = m.pending - 1) := by
  constructor
  · intro h
    subst h
    exact ⟨rfl, by simp [eitherStep], rfl⟩
  · intro e h
    subst h
    exact ⟨rfl, by simp [eitherStep], rfl⟩

/-- Witness for C2: both settlement cases at concrete inputs. -/
theorem either_settlement_witness :
    ((eitherStep none c0ex (mkManager 1)).1 = (none, some c0ex) ∧
      c0ex ∈ ((eitherStep none c0ex (mkManager 1)).2).pool ∧
      ((eitherStep none c0ex (mkManager 1)).2).pending = (mkManager 1).pending - 1) ∧
    ((eitherStep (some "connect failed") c0ex (mkManager 1)).1 =
        (some "connect failed", some c0ex) ∧
      c0ex ∈ ((eitherStep (some "connect failed") c0ex (mkManager 1)).2).pool ∧
      ((eitherStep (some "connect failed") c0ex (mkManager 1)).2).pending =
        (mkManager 1).pending - 1) :=
  ⟨(either_settlement none c0ex (mkManager 1)).1 rfl,
   (either_settlement (some "connect failed") c0ex (mkManager 1)).2 "connect failed" rfl⟩

/-- Counterexample to C2 as stated: when the fresh connection signals an
error, the allocation completes with that error but the connection IS added
to the pool. -/
theorem either_error_pools_connection_cex :
    (eitherStep (some "connect failed") c0ex (mkManager 1)).1 =
      (some "connect failed", some c0ex) ∧
    c0ex ∈ ((eitherStep (some "connect failed") c0ex (mkManager 1)).2).pool := by
  decide

/-- C3 (amended): every `allocate` call with a registered factory increments
the `allocations` metric by exactly 1 regardless of outcome; a call that
fails immediately because no factory is registered leaves the metric
unchanged. -/
theorem allocations_metric :
    (∀ (rand : Conn → Nat) (fb : FactoryBehavior) (m : Manager),
      (allocate rand (some fb) m).st.allocations = m.allocations + 1) ∧
    (∀ (rand : Conn → Nat) (m : Manager),
      (allocate rand none m).st.allocations = m.allocations) :=
  ⟨allocate_allocations_some, allocate_allocations_none⟩

/-- Counterexample to C3 as stated: a call without a registered factory fails
with the configuration error and does not increment `allocations`. -/
theorem allocations_metric_no_factory_cex :
    (allocate rand0 none (mkManager 1)).st.allocations ≠
      (mkManager 1).allocations + 1 ∧
    (allocate rand0 none (mkManager 1)).result =
      AllocResult.done (some noFactoryMsg) none := by
  decide

/-- C4 (amended): when some pooled connection scores exactly 100, `allocate`
completes immediately with the first such connection in REVERSE pool order
(the scan runs from the highest index down), i.e. the last such connection
in insertion order, without sorting.  The hypothesis that each connection
appears at most once mirrors the pool-membership invariant of the data
model. -/
theorem scan_pick_reverse_order (rand : Conn → Nat) (fb : FactoryBehavior)
    (m : Manager) (c : Conn) (hcnt : ∀ d, countc d m.pool ≤ 1)
    (hf : List.find? score100 m.pool.reverse = some c) :
    (allocate rand (some fb) m).result = AllocResult.done none (some c) := by
  obtain ⟨st2, hs⟩ := scanLoop_find_hit rand c
    (({ m with allocations := m.allocations + 1 } : Manager)).pool.length
    ({ m with allocations := m.allocations + 1 }) [] hcnt (le_refl _)
    (by rw [List.take_length]; exact hf)
  simp only [allocate]
  rw [hs]

/-- Witness for C4: a pool `[c1ex, c2ex]` where both score 100 yields the
reverse-order first match `c2ex`. -/
theorem scan_pick_reverse_order_witness :
    (allocate rand0 (some (FactoryBehavior.sync none)) mTwoOpen).result =
      AllocResult.done none (some c2ex) :=
  scan_pick_reverse_order rand0 (FactoryBehavior.sync none) mTwoOpen c2ex
    (fun d => countc_pair_le_one c1ex c2ex d (by decide)) (by decide)

/-- Counterexample to C4 as stated: with pool `[c1ex, c2ex]`, both scoring
100, the first match in pool (insertion) order is `c1ex`, but `allocate`
completes with `c2ex`. -/
theorem scan_first_in_pool_order_cex :
    mTwoOpen.pool = [c1ex, c2ex] ∧
    score100 c1ex = true ∧
    (allocate rand0 (some (FactoryBehavior.sync none)) mTwoOpen).result ≠
      AllocResult.done none (some c1ex) ∧
    (allocate rand0 (some (FactoryBehavior.sync none)) mTwoOpen).result =
      AllocResult.done none (some c2ex) := by
  decide

/-- C5 (amended): the availability scorer returns 0, not 70, for every
connection in the `opening` state: the not-writable check precedes the
`opening` check, so the 70-returning branch is unreachable. -/
theorem opening_scores_zero (rand : Conn → Nat) (m : Manager) (c : Conn)
    (h : c.readyState = "opening") : (isAvailable rand m c).1 = 0 := by
  have hw : writable c = false := by simp [writable, h]
  have hnot : ¬ (writable c && writeCount c == 0) = true := by simp [hw]
  unfold isAvailable
  rw [if_neg hnot]
  split_ifs with h2 h3 h4 h5
  · rfl
  · rfl
  all_goals (exfalso; rw [hw] at h3; simp at h3)

/-- Witness for C5: a concrete opening connection scores 0. -/
theorem opening_scores_zero_witness :
    (isAvailable rand0 (mkManager 1) cOpeningEx).1 = 0 :=
  opening_scores_zero rand0 (mkManager 1) cOpeningEx rfl

/-- Counterexample to C5 as stated: a concrete opening connection scores 0,
not 70. -/
theorem opening_scores_seventy_cex :
    cOpeningEx.readyState = "opening" ∧
    (isAvailable rand0 (mkManager 1) cOpeningEx).1 ≠ 70 ∧
    (isAvailable rand0 (mkManager 1) cOpeningEx).1 = 0 := by
  decide

/-- C6 (amended): scoring a connection whose state is `closed`, or whose
destroyed flag is set while it is not simultaneously writable with zero
queued writes, returns 0 and leaves the connection absent from the pool
(under the at-most-once pool-membership invariant).  The writable-with-zero-
writes guard is forced by the 100 branch preceding the destroyed check. -/
theorem closed_or_destroyed_eviction (rand : Conn → Nat) (m : Manager) (c : Conn)
    (h : c.readyState = "closed" ∨
      (c.destroyed = true ∧ ¬ (writable c = true ∧ writeCount c = 0)))
    (hcnt : ∀ d, countc d m.pool ≤ 1) :
    (isAvailable rand m c).1 = 0 ∧ c ∉ ((isAvailable rand m c).2).pool := by
  have hnot : ¬ (writable c && writeCount c == 0) = true := by
    rcases h with h | ⟨hd, hw⟩
    · simp [writable, h]
    · intro hb
      simp only [Bool.and_eq_true, beq_iff_eq] at hb
      exact hw ⟨hb.1, hb.2⟩
  have h2 : (c.readyState == "closed" || c.destroyed) = true := by
    rcases h with h | ⟨hd, _⟩
    · simp [h]
    · simp [hd]
  unfold isAvailable
  rw [if_neg hnot, if_pos h2]
  refine ⟨rfl, ?_⟩
  rw [release_pool]
  by_cases hm : c ∈ m.pool
  · rw [if_pos hm]
    exact not_mem_removeFirst_of_count_le_one c m.pool (hcnt c)
  · rw [if_neg hm]
    exact hm

/-- Witness for C6: a concrete closed connection scores 0 and is evicted. -/
theorem closed_or_destroyed_eviction_witness :
    (isAvailable rand0 mClosed cClosedEx).1 = 0 ∧
    cClosedEx ∉ ((isAvailable rand0 mClosed cClosedEx).2).pool :=
  closed_or_destroyed_eviction rand0 mClosed cClosedEx (Or.inl rfl)
    (fun d => countc_singleton_le_one cClosedEx d)

/-- Counterexample to C6 as stated: a destroyed connection whose state is
still `open` with no queued writes scores 100 and stays in the pool. -/
theorem destroyed_but_writable_cex :
    cZombieEx.destroyed = true ∧
    (isAvailable rand0 mZombie cZombieEx).1 = 100 ∧
    cZombieEx ∈ ((isAvailable rand0 mZombie cZombieEx).2).pool := by
  decide

/-- C7: when the scan found no score-100 connection and no new connection is
created (capacity gate fails, or the synchronous factory returned a falsy
value), `allocate` completes with a connection of maximal recorded score when
that score is at least 60, and otherwise with the "pool is full" error. -/
theorem fallback_best_candidate (rand : Conn → Nat) (fb : FactoryBehavior)
    (m st : Manager) (probs : List (Nat × Conn))
    (hs : scanLoop rand (({ m with allocations := m.allocations + 1 } : Manager)).pool.length
      ({ m with allocations := m.allocations + 1 }) [] = ScanRes.nohit st probs)
    (hcase : ¬ ((st.pool.length : Int) + st.pending < (st.limit : Int)) ∨
      fb = FactoryBehavior.sync none) :
    (∃ p c, (p, c) ∈ probs ∧ 60 ≤ p ∧ (∀ q d, (q, d) ∈ probs → q ≤ p) ∧
      (allocate rand (some fb) m).result = AllocResult.done none (some c)) ∨
    ((∀ q d, (q, d) ∈ probs → q < 60) ∧
      (allocate rand (some fb) m).result = AllocResult.done (some poolFullMsg) none) := by
  have hres := allocate_fallback rand fb m st probs hs hcase
  rcases fallbackResult_spec probs with ⟨p, c, hm, h60, hmax, hf⟩ | ⟨hlt, hf⟩
  · exact Or.inl ⟨p, c, hm, h60, hmax, by rw [hres, hf]⟩
  · exact Or.inr ⟨hlt, by rw [hres, hf]⟩

/-- Witness for C7: a full limit-1 pool holding one busy connection of score
70 makes `allocate` complete with that connection. -/
theorem fallback_best_candidate_witness :
    (∃ p c, (p, c) ∈ [((70 : Nat), cBusyEx)] ∧ 60 ≤ p ∧
      (∀ q d, (q, d) ∈ [((70 : Nat), cBusyEx)] → q ≤ p) ∧
      (allocate rand0 (some (FactoryBehavior.sync (some c0ex))) mBusy).result =
        AllocResult.done none (some c)) ∨
    ((∀ q d, (q, d) ∈ [((70 : Nat), cBusyEx)] → q < 60) ∧
      (allocate rand0 (some (FactoryBehavior.sync (some c0ex))) mBusy).result =
        AllocResult.done (some poolFullMsg) none) :=
  fallback_best_candidate rand0 (FactoryBehavior.sync (some c0ex)) mBusy
    ⟨1, [cBusyEx], 0, 1, 0⟩ [(70, cBusyEx)] (by decide) (Or.inl (by decide))

/-- C8: `release(connection, hard)` on a pooled connection returns true,
removes the connection (under the at-most-once pool-membership invariant)
and increments `releases` by exactly 1; on a connection not in the pool it
returns false and changes nothing. -/
theorem release_semantics (c : Conn) (hard : Bool) (m : Manager) :
    (c ∈ m.pool →
      (release c hard m).1 = true ∧
      ((release c hard m).2).releases = m.releases + 1 ∧
      ((∀ d, countc d m.pool ≤ 1) → c ∉ ((release c hard m).2).pool)) ∧
    (c ∉ m.pool →
      (release c hard m).1 = false ∧ (release c hard m).2 = m) := by
  constructor
  · intro hm
    refine ⟨by simp [release, hm], by simp [release, hm], ?_⟩
    intro hcnt
    rw [release_pool, if_pos hm]
    exact not_mem_removeFirst_of_count_le_one c m.pool (hcnt c)
  · intro hm
    exact ⟨by simp [release, hm], by simp [release, hm]⟩

/-- Witness for C8: both branches at concrete inputs. -/
theorem release_semantics_witness :
    ((release c0ex true mOne).1 = true ∧
      ((release c0ex true mOne).2).releases = mOne.releases + 1 ∧
      c0ex ∉ ((release c0ex true mOne).2).pool) ∧
    ((release c1ex true mOne).1 = false ∧ (release c1ex true mOne).2 = mOne) := by
  constructor
  · obtain ⟨h1, h2, h3⟩ := (release_semantics c0ex true mOne).1 (by decide)
    exact ⟨h1, h2, h3 (fun d => countc_singleton_le_one c0ex d)⟩
  · exact (release_semantics c1ex true mOne).2 (by decide)

/-- C9: across any interleaving of `end` calls and `connection:close`
notifications starting from a manager with no registered shutdown listeners,
the terminal `close` event is emitted at most once — in particular calling
`end` twice never emits `close` twice. -/
theorem close_emitted_at_most_once (m : Manager) (st : EMState)
    (h : EReach ⟨m, [], 0, 0⟩ st) : st.closeEmits ≤ 1 := by
  have hinv := ereach_inv9 ⟨m, [], 0, 0⟩ rfl rfl st h
  omega

/-- Witness for C9: two `end` calls on a one-connection pool followed by one
`connection:close` notification emit `close` at most once. -/
theorem close_emitted_at_most_once_witness :
    (closeEvent c0ex (endCall rand0 (endCall rand0 ⟨mOne, [], 0, 0⟩))).closeEmits ≤ 1 :=
  close_emitted_at_most_once mOne _
    (EReach.tail
      (EReach.tail (EReach.tail EReach.refl (EStep.endStep rand0 _))
        (EStep.endStep rand0 _))
      (EStep.closeStep c0ex _))

/-- C10: when `end` is called on an empty pool the `connection:close`
countdown starts at 0, every decrement yields a nonzero (negative) value, and
the terminal `close` event is never emitted in any continuation — while each
`end` call still schedules its asynchronous `end` notification. -/
theorem empty_pool_close_never_emitted :
    (∀ (m : Manager) (st : EMState), m.pool = [] →
      EReach ⟨m, [], 0, 0⟩ st → st.closeEmits = 0) ∧
    (∀ (rand : Conn → Nat) (st : EMState),
      (endCall rand st).endEmits = st.endEmits + 1) := by
  constructor
  · intro m st hpool h
    exact (ereach_inv10 ⟨m, [], 0, 0⟩ hpool rfl rfl st h).2.2
  · intro rand st
    rfl

/-- Witness for C10: two `end` calls on an empty pool plus a stray
`connection:close` notification never emit `close`, and an `end` call
schedules exactly one `end` notification. -/
theorem empty_pool_close_never_emitted_witness :
    (closeEvent c0ex (endCall rand0 (endCall rand0 ⟨mkManager 2, [], 0, 0⟩))).closeEmits = 0 ∧
    (endCall rand0 ⟨mkManager 2, [], 0, 0⟩).endEmits = 1 :=
  ⟨empty_pool_close_never_emitted.1 (mkManager 2) _ rfl
    (EReach.tail
      (EReach.tail (EReach.tail EReach.refl (EStep.endStep rand0 _))
        (EStep.endStep rand0 _))
      (EStep.closeStep c0ex _)),
   empty_pool_close_never_emitted.2 rand0 ⟨mkManager 2, [], 0, 0⟩⟩

end Jackpot
